import Mathlib

/-
Shallow embedding of the core of the rag-specskit-app repository:
the chunking algorithm `chunk_text` of src/backend/document_processor.py
and the result post-processing pipeline (threshold filter, source
normalization, per-source deduplication, sort, truncation) of
`query_similar` in src/backend/chroma_client.py (lines 229-281).

Python strings are modelled as `List Char` (for the chunker, which
slices by position) or `String` (for candidate metadata); Python floats
(similarity scores, thresholds) are modelled as `ℚ`, since the claims
only concern comparisons and exact arithmetic on them; Python's stable
`list.sort` is modelled by a stable insertion sort (any two stable
sorts by the same key agree).
-/

/-! ### Chunker: document_processor.chunk_text -/

inductive ChunkError where
  | invalidParameter
deriving DecidableEq

instance : DecidableEq (Except ChunkError (List (List Char))) := fun a b =>
  match a, b with
  | .ok x, .ok y =>
    if h : x = y then isTrue (by rw [h]) else isFalse (fun he => h (by injection he))
  | .error x, .error y =>
    if h : x = y then isTrue (by rw [h]) else isFalse (fun he => h (by injection he))
  | .ok _, .error _ => isFalse (fun he => by injection he)
  | .error _, .ok _ => isFalse (fun he => by injection he)

/-- One iteration of the loop `for i in range(0, len(text), step)` in
`chunk_text` (document_processor.py lines 119-131): take the window
`text[i : i + chunk_size]`, keep it when `chunk.strip()` is truthy
(i.e. the window is not empty and not all-whitespace), and stop after
the window with `i + chunk_size >= len(text)`.  The `fuel` argument
only bounds the recursion depth: `chunk_text` passes `text.length`,
which dominates the number of loop iterations because the step is
positive there. -/
def chunkFrom (text : List Char) (w step : Nat) : Nat → Nat → List (List Char)
  | _, 0 => []
  | i, fuel + 1 =>
    if i < text.length then
      let c := (text.drop i).take w
      let rest := if text.length ≤ i + w then [] else chunkFrom text w step (i + step) fuel
      if c.all Char.isWhitespace then rest else c :: rest
    else []

/-- document_processor.chunk_text (lines 96-131).  Parameters are Python
ints; the `ValueError`s for bad parameters are `invalidParameter`.  The
early `if not text: return []` needs no separate case: the loop body
never runs on empty text. -/
def chunk_text (text : List Char) (chunk_size overlap : Int) :
    Except ChunkError (List (List Char)) :=
  if chunk_size ≤ 0 then .error .invalidParameter
  else if overlap < 0 ∨ chunk_size ≤ overlap then .error .invalidParameter
  else .ok (chunkFrom text chunk_size.toNat (chunk_size - overlap).toNat 0 text.length)

/-- Position `p` of `t` lies inside at least one width-`w` window that
occurs among the emitted chunks `cs`. -/
abbrev covered (t : List Char) (w : Nat) (cs : List (List Char)) (p : Nat) : Prop :=
  ∃ j ∈ List.range t.length, j ≤ p ∧ p < j + w ∧ (t.drop j).take w ∈ cs

/-! ### Result post-processing: chroma_client.query_similar lines 229-281 -/

/-- Python `str.strip()` on the underlying character list (drop leading
and trailing whitespace). -/
def stripWS (l : List Char) : List Char :=
  ((l.dropWhile Char.isWhitespace).reverse.dropWhile Char.isWhitespace).reverse

/-- Python `str(src).strip()` on a string. -/
def pyStrip (s : String) : String := ⟨stripWS s.data⟩

/-- One formatted result record of `query_similar`: `text`, the
`source` entry of its metadata mapping (`none` when the metadata or the
key is missing), and the similarity `score`. -/
structure Candidate where
  text : String
  source : Option String
  score : ℚ
deriving DecidableEq

instance : Inhabited Candidate := ⟨⟨"", none, 0⟩⟩

/-- `r.get("metadata", {}).get("source", "")`. -/
def srcOf (c : Candidate) : String := c.source.getD ""

/-- Lines 253-257: `md["source"] = str(src).strip() if src is not None
else ""` (with `src = md.get("source", "")`). -/
def normalizeC (c : Candidate) : Candidate :=
  { c with source := some (pyStrip (srcOf c)) }

/-- Lines 249-251: `if min_score and min_score > 0: formatted_results =
[r for r in formatted_results if r.get("score", 0) >= float(min_score)]`.
The filter runs only when `min_score` is truthy and positive. -/
def filterStep (minScore : ℚ) (cs : List Candidate) : List Candidate :=
  if 0 < minScore then cs.filter (fun c => decide (minScore ≤ c.score)) else cs

/-- Lines 253-257 applied to the whole list. -/
def normStep (cs : List Candidate) : List Candidate := cs.map normalizeC

/-- The candidate list after threshold filtering and source
normalization (the state of `formatted_results` at line 259). -/
def fsOf (minScore : ℚ) (cs : List Candidate) : List Candidate :=
  normStep (filterStep minScore cs)

/-- Line 259: `len(unique_sources)`, the number of distinct normalized
source strings (the empty string is a value of the set like any
other). -/
def numSources (cs : List Candidate) : Nat := ((cs.map srcOf).dedup).length

/-- Effect of `deduped[src] = r` on the dict (`deduped.get(src)` then
`if prev is None or r.score > prev.score`): replace the entry holding
the same source when the new score is strictly greater, keep the dict
unchanged on a tie or worse, append a new entry for an unseen source
(Python dicts preserve insertion order). -/
def dedupInsert (c : Candidate) : List Candidate → List Candidate
  | [] => [c]
  | b :: bs =>
    if srcOf b = srcOf c then
      if b.score < c.score then c :: bs else b :: bs
    else b :: dedupInsert c bs

/-- Loop body of lines 263-271: candidates with empty normalized source
are skipped (`if not src: continue`); the others go through the dict
update. -/
def dedupFold (acc : List Candidate) (c : Candidate) : List Candidate :=
  if srcOf c = "" then acc else dedupInsert c acc

/-- Lines 264-273: `deduped` built over the whole list, then
`list(deduped.values())`. -/
def dedupStep (cs : List Candidate) : List Candidate := cs.foldl dedupFold []

/-- Insert into a list sorted by score descending, after every element
of greater-or-equal score: the stable insertion step. -/
def insertDesc (c : Candidate) : List Candidate → List Candidate
  | [] => [c]
  | b :: bs => if b.score ≤ c.score then c :: b :: bs else b :: insertDesc c bs

/-- Line 279: `results_list.sort(key=lambda x: x.get("score", 0),
reverse=True)` — Python's sort is stable, modelled by stable insertion
sort (stable sorts by the same key are unique). -/
def sortDesc : List Candidate → List Candidate
  | [] => []
  | c :: cs => insertDesc c (sortDesc cs)

/-- The ordering key of line 279: `a` before `b` is fine when
`b.score ≤ a.score` (score descending). -/
def scoreGE (a b : Candidate) : Prop := b.score ≤ a.score

/-- Lines 261-276: the surviving set handed to the final sort — the
deduplicated list when more than one distinct normalized source value
is present, the filtered list itself otherwise. -/
def rankSurvivors (minScore : ℚ) (cs : List Candidate) : List Candidate :=
  if 1 < numSources (fsOf minScore cs) then dedupStep (fsOf minScore cs)
  else fsOf minScore cs

/-- The whole post-processing pipeline of `query_similar`
(lines 249-281), the spec's `rank(candidates, topK, minScore)`:
threshold filter, source normalization, conditional per-source
deduplication, stable sort by score descending, truncation to `topK`
(`return results_list[:top_k]`). -/
def rank (cs : List Candidate) (topK : Nat) (minScore : ℚ) : List Candidate :=
  (sortDesc (rankSurvivors minScore cs)).take topK

/-- Lines 229-247: build `formatted_results` from the backend response.
`sources` holds each metadata's `source` entry (`none` when absent);
a missing metadata entry (index beyond `metadatas`) is `{}`, i.e.
`none`.  `score = 1 - distances[i] if i < len(distances) else 1.0`. -/
def formatResults (docs : List String) (sources : List (Option String))
    (distances : List ℚ) : List Candidate :=
  (List.range docs.length).map fun i =>
    { text := docs.getD i ""
      source := sources.getD i none
      score := if i < distances.length then 1 - distances.getD i 0 else 1 }

/-- Invariant of the dedup loop: after processing the prefix `p` of the
filtered list, the dict `acc` holds only candidates of `p` with
nonempty source, one per source, each being the first candidate of `p`
of its source whose score is not exceeded later (first highest-scoring
candidate of its source). -/
def DedupInv (p acc : List Candidate) : Prop :=
  (∀ a ∈ acc, a ∈ p ∧ srcOf a ≠ "") ∧
  ((acc.map srcOf).Nodup) ∧
  (∀ c ∈ p, srcOf c ≠ "" → ∃ a, a ∈ acc ∧ srcOf a = srcOf c ∧ c.score ≤ a.score) ∧
  (∀ a ∈ acc,
    p.find? (fun c => srcOf c == srcOf a && decide (a.score ≤ c.score)) = some a)

/-! ### Helper lemmas: Python `str.strip()` -/

theorem dropWhile_idem (p : Char → Bool) (l : List Char) :
    (l.dropWhile p).dropWhile p = l.dropWhile p := by
  induction l with
  | nil => rfl
  | cons a t ih =>
    cases hp : p a with
    | true => simp [List.dropWhile_cons, hp, ih]
    | false => simp [List.dropWhile_cons, hp]

theorem head?_dropWhile (p : Char → Bool) (l : List Char) (c : Char)
    (h : (l.dropWhile p).head? = some c) : p c = false := by
  induction l with
  | nil => simp at h
  | cons a t ih =>
    cases hp : p a with
    | true => rw [List.dropWhile_cons, if_pos hp] at h; exact ih h
    | false =>
      rw [List.dropWhile_cons, if_neg (by simp [hp])] at h
      simp only [List.head?_cons, Option.some.injEq] at h
      rw [← h]; exact hp

theorem dropWhile_eq_self_of_head? (p : Char → Bool) (l : List Char)
    (h : ∀ c, l.head? = some c → p c = false) : l.dropWhile p = l := by
  cases l with
  | nil => rfl
  | cons a t => rw [List.dropWhile_cons, if_neg (by simp [h a rfl])]

theorem getLast?_of_suffix {l m : List Char} (h : m <:+ l) (hm : m ≠ []) :
    m.getLast? = l.getLast? := by
  obtain ⟨t, rfl⟩ := h
  exact (List.getLast?_append_of_ne_nil t hm).symm

theorem stripWS_no_leading (l : List Char) (c : Char)
    (hc : (stripWS l).head? = some c) : c.isWhitespace = false := by
  rw [stripWS, List.head?_reverse] at hc
  have hmne : (l.dropWhile Char.isWhitespace).reverse.dropWhile Char.isWhitespace ≠ [] := by
    intro h0; rw [h0] at hc; simp at hc
  rw [getLast?_of_suffix (List.dropWhile_suffix _) hmne, List.getLast?_reverse] at hc
  exact head?_dropWhile _ _ _ hc

theorem stripWS_idem (l : List Char) : stripWS (stripWS l) = stripWS l := by
  have hA : (stripWS l).dropWhile Char.isWhitespace = stripWS l :=
    dropWhile_eq_self_of_head? _ _ (stripWS_no_leading l)
  have h1 : stripWS (stripWS l) =
      (((stripWS l).dropWhile Char.isWhitespace).reverse.dropWhile Char.isWhitespace).reverse :=
    rfl
  rw [h1, hA]
  have h2 : (stripWS l).reverse =
      (l.dropWhile Char.isWhitespace).reverse.dropWhile Char.isWhitespace := by
    rw [stripWS, List.reverse_reverse]
  rw [h2, dropWhile_idem]
  rfl

theorem pyStrip_idem (s : String) : pyStrip (pyStrip s) = pyStrip s := by
  have : stripWS (stripWS s.data) = stripWS s.data := stripWS_idem s.data
  simp only [pyStrip]
  rw [this]

theorem srcOf_normalizeC (c : Candidate) : srcOf (normalizeC c) = pyStrip (srcOf c) := rfl

theorem score_normalizeC (c : Candidate) : (normalizeC c).score = c.score := rfl

theorem normalizeC_idem (c : Candidate) : normalizeC (normalizeC c) = normalizeC c := by
  simp only [normalizeC, srcOf, Option.getD_some]
  rw [pyStrip_idem]

/-! ### Helper lemmas: the stable descending sort -/

theorem mem_insertDesc {a c : Candidate} {l : List Candidate} :
    a ∈ insertDesc c l ↔ a = c ∨ a ∈ l := by
  induction l with
  | nil => simp [insertDesc]
  | cons b bs ih =>
    by_cases h : b.score ≤ c.score
    · simp [insertDesc, h]
    · simp only [insertDesc, if_neg h, List.mem_cons, ih]
      tauto

theorem insertDesc_perm (c : Candidate) (l : List Candidate) :
    List.Perm (insertDesc c l) (c :: l) := by
  induction l with
  | nil => exact List.Perm.refl _
  | cons b bs ih =>
    by_cases h : b.score ≤ c.score
    · simp [insertDesc, h]
    · have h1 : insertDesc c (b :: bs) = b :: insertDesc c bs := by simp [insertDesc, h]
      rw [h1]
      exact (List.Perm.cons b ih).trans (List.Perm.swap c b bs)

theorem sortDesc_perm (l : List Candidate) : List.Perm (sortDesc l) l := by
  induction l with
  | nil => exact List.Perm.refl _
  | cons c cs ih => exact (insertDesc_perm c (sortDesc cs)).trans (List.Perm.cons c ih)

theorem mem_sortDesc {a : Candidate} {l : List Candidate} : a ∈ sortDesc l ↔ a ∈ l :=
  (sortDesc_perm l).mem_iff

theorem insertDesc_sorted (c : Candidate) {l : List Candidate}
    (h : List.Sorted scoreGE l) : List.Sorted scoreGE (insertDesc c l) := by
  induction l with
  | nil => simp [insertDesc, scoreGE]
  | cons b bs ih =>
    obtain ⟨hb, hbs⟩ := List.sorted_cons.1 h
    by_cases hc : b.score ≤ c.score
    · rw [insertDesc, if_pos hc]
      refine List.sorted_cons.2 ⟨?_, h⟩
      intro x hx
      rcases List.mem_cons.1 hx with rfl | hx
      · exact hc
      · exact le_trans (hb x hx) hc
    · rw [insertDesc, if_neg hc]
      refine List.sorted_cons.2 ⟨?_, ih hbs⟩
      intro x hx
      rcases mem_insertDesc.1 hx with rfl | hx
      · exact le_of_not_le hc
      · exact hb x hx

theorem sortDesc_sorted (l : List Candidate) : List.Sorted scoreGE (sortDesc l) := by
  induction l with
  | nil => simp [sortDesc]
  | cons c cs ih => exact insertDesc_sorted c ih

theorem sortDesc_eq_of_sorted {l : List Candidate} (h : List.Sorted scoreGE l) :
    sortDesc l = l := by
  induction l with
  | nil => rfl
  | cons a l ih =>
    obtain ⟨ha, hl⟩ := List.sorted_cons.1 h
    show insertDesc a (sortDesc l) = a :: l
    rw [ih hl]
    cases l with
    | nil => rfl
    | cons b bs =>
      rw [insertDesc, if_pos (show b.score ≤ a.score from ha b (List.mem_cons_self b bs))]

theorem filter_insertDesc_of_neg (q : Candidate → Bool) (c : Candidate)
    (l : List Candidate) (hc : q c = false) :
    (insertDesc c l).filter q = l.filter q := by
  induction l with
  | nil => simp [insertDesc, hc]
  | cons b bs ih =>
    by_cases h : b.score ≤ c.score
    · simp [insertDesc, h, List.filter_cons, hc]
    · rw [insertDesc, if_neg h]
      simp only [List.filter_cons, ih]

theorem filter_insertDesc_of_pos (s : ℚ) (c : Candidate) (l : List Candidate)
    (hc : c.score = s) :
    (insertDesc c l).filter (fun d => decide (d.score = s)) =
      c :: l.filter (fun d => decide (d.score = s)) := by
  induction l with
  | nil => simp [insertDesc, hc]
  | cons b bs ih =>
    by_cases h : b.score ≤ c.score
    · rw [insertDesc, if_pos h]
      simp [List.filter_cons, hc]
    · have hb : decide (b.score = s) = false := by
        simp only [decide_eq_false_iff_not]
        intro hbs
        exact h (le_of_eq (hbs.trans hc.symm))
      rw [insertDesc, if_neg h]
      simp only [List.filter_cons, hb, ih]
      simp

theorem sortDesc_filter_score (l : List Candidate) (s : ℚ) :
    (sortDesc l).filter (fun d => decide (d.score = s)) =
      l.filter (fun d => decide (d.score = s)) := by
  induction l with
  | nil => rfl
  | cons c cs ih =>
    show (insertDesc c (sortDesc cs)).filter _ = _
    by_cases hc : c.score = s
    · rw [filter_insertDesc_of_pos s c _ hc, ih]
      simp [List.filter_cons, hc]
    · rw [filter_insertDesc_of_neg _ c _ (by simp [hc]), ih]
      simp [List.filter_cons, hc]

/-! ### Helper lemmas: the per-source dedup dict -/

theorem find?_append_left {α : Type} (p : α → Bool) (l₁ l₂ : List α) (a : α)
    (h : l₁.find? p = some a) : (l₁ ++ l₂).find? p = some a := by
  induction l₁ with
  | nil => simp at h
  | cons x xs ih =>
    cases hx : p x with
    | true =>
      rw [List.find?_cons_of_pos _ hx] at h
      rw [List.cons_append, List.find?_cons_of_pos _ hx]
      exact h
    | false =>
      rw [List.find?_cons_of_neg _ (by simp [hx])] at h
      rw [List.cons_append, List.find?_cons_of_neg _ (by simp [hx])]
      exact ih h

theorem find?_append_of_all_neg {α : Type} (p : α → Bool) (l₁ l₂ : List α)
    (h : ∀ x ∈ l₁, p x = false) : (l₁ ++ l₂).find? p = l₂.find? p := by
  induction l₁ with
  | nil => rfl
  | cons x xs ih =>
    rw [List.cons_append, List.find?_cons_of_neg _ (by simp [h x (List.mem_cons_self x xs)])]
    exact ih (fun y hy => h y (List.mem_cons_of_mem x hy))

theorem mem_dedupInsert {a c : Candidate} {l : List Candidate}
    (h : a ∈ dedupInsert c l) : a = c ∨ a ∈ l := by
  induction l with
  | nil => simpa [dedupInsert] using h
  | cons b bs ih =>
    by_cases hs : srcOf b = srcOf c
    · by_cases hlt : b.score < c.score
      · rw [dedupInsert, if_pos hs, if_pos hlt] at h
        rcases List.mem_cons.1 h with rfl | h
        · exact Or.inl rfl
        · exact Or.inr (List.mem_cons_of_mem b h)
      · rw [dedupInsert, if_pos hs, if_neg hlt] at h
        exact Or.inr h
    · rw [dedupInsert, if_neg hs] at h
      rcases List.mem_cons.1 h with rfl | h
      · exact Or.inr (List.mem_cons_self a bs)
      · rcases ih h with h | h
        · exact Or.inl h
        · exact Or.inr (List.mem_cons_of_mem b h)

theorem dedupInsert_cases (c : Candidate) (l : List Candidate) :
    ((∀ b ∈ l, srcOf b ≠ srcOf c) ∧ dedupInsert c l = l ++ [c]) ∨
    (∃ l₁ b l₂, l = l₁ ++ b :: l₂ ∧ (∀ x ∈ l₁, srcOf x ≠ srcOf c) ∧ srcOf b = srcOf c ∧
      dedupInsert c l = l₁ ++ (if b.score < c.score then c else b) :: l₂) := by
  induction l with
  | nil => exact Or.inl ⟨by simp, rfl⟩
  | cons b bs ih =>
    by_cases hs : srcOf b = srcOf c
    · refine Or.inr ⟨[], b, bs, rfl, by simp, hs, ?_⟩
      rw [dedupInsert, if_pos hs]
      by_cases hlt : b.score < c.score
      · rw [if_pos hlt, if_pos hlt, List.nil_append]
      · rw [if_neg hlt, if_neg hlt, List.nil_append]
    · rcases ih with ⟨hall, heq⟩ | ⟨l₁, b', l₂, hsplit, hl₁, hb', heq⟩
      · refine Or.inl ⟨?_, ?_⟩
        · intro x hx
          rcases List.mem_cons.1 hx with rfl | hx
          · exact hs
          · exact hall x hx
        · rw [dedupInsert, if_neg hs, heq, List.cons_append]
      · refine Or.inr ⟨b :: l₁, b', l₂, by rw [hsplit, List.cons_append], ?_, hb', ?_⟩
        · intro x hx
          rcases List.mem_cons.1 hx with rfl | hx
          · exact hs
          · exact hl₁ x hx
        · rw [dedupInsert, if_neg hs, heq, List.cons_append]

theorem dedupInsert_of_no_match (c : Candidate) (l : List Candidate)
    (h : ∀ b ∈ l, srcOf b ≠ srcOf c) : dedupInsert c l = l ++ [c] := by
  rcases dedupInsert_cases c l with ⟨_, heq⟩ | ⟨l₁, b, l₂, hsplit, _, hb, _⟩
  · exact heq
  · exact absurd hb (h b (by rw [hsplit]; exact List.mem_append_right l₁ (List.mem_cons_self b l₂)))

theorem dedupInv_step (p acc : List Candidate) (x : Candidate) (h : DedupInv p acc) :
    DedupInv (p ++ [x]) (dedupFold acc x) := by
  obtain ⟨h1, h2, h3, h4⟩ := h
  by_cases hx : srcOf x = ""
  · rw [dedupFold, if_pos hx]
    refine ⟨?_, h2, ?_, ?_⟩
    · intro a ha
      exact ⟨List.mem_append_left _ (h1 a ha).1, (h1 a ha).2⟩
    · intro c hc hcs
      rcases List.mem_append.1 hc with hc | hc
      · exact h3 c hc hcs
      · rw [List.mem_singleton] at hc
        subst hc
        exact absurd hx hcs
    · intro a ha
      exact find?_append_left _ _ _ _ (h4 a ha)
  · rw [dedupFold, if_neg hx]
    rcases dedupInsert_cases x acc with ⟨hall, heq⟩ | ⟨l₁, b, l₂, hsplit, hl₁, hbsrc, heq⟩
    · -- no entry with the source of `x` yet: append
      rw [heq]
      have hnotinp : ∀ c ∈ p, srcOf c ≠ srcOf x := by
        intro c hc hceq
        by_cases hcs : srcOf c = ""
        · exact hx (hceq.symm.trans hcs)
        · obtain ⟨a, ha, hasrc, _⟩ := h3 c hc hcs
          exact hall a ha (hasrc.trans hceq)
      refine ⟨?_, ?_, ?_, ?_⟩
      · intro a ha
        rcases List.mem_append.1 ha with ha | ha
        · exact ⟨List.mem_append_left _ (h1 a ha).1, (h1 a ha).2⟩
        · rw [List.mem_singleton] at ha
          subst ha
          exact ⟨List.mem_append_right _ (List.mem_singleton.2 rfl), hx⟩
      · rw [List.map_append, List.map_singleton, List.nodup_append]
        refine ⟨h2, List.nodup_singleton _, ?_⟩
        intro s hs hs2
        rw [List.mem_singleton] at hs2
        subst hs2
        rcases List.mem_map.1 hs with ⟨a, ha, hasrc⟩
        exact hall a ha hasrc
      · intro c hc hcs
        rcases List.mem_append.1 hc with hc | hc
        · obtain ⟨a, ha, h5, h6⟩ := h3 c hc hcs
          exact ⟨a, List.mem_append_left _ ha, h5, h6⟩
        · rw [List.mem_singleton] at hc
          subst hc
          exact ⟨c, List.mem_append_right _ (List.mem_singleton.2 rfl), rfl, le_refl _⟩
      · intro a ha
        rcases List.mem_append.1 ha with ha | ha
        · exact find?_append_left _ _ _ _ (h4 a ha)
        · rw [List.mem_singleton] at ha
          subst ha
          rw [find?_append_of_all_neg]
          · rw [List.find?_cons_of_pos _ (by simp)]
          · intro c hc
            have hbe : (srcOf c == srcOf a) = false := by
              simp [hnotinp c hc]
            rw [hbe, Bool.false_and]
    · -- an entry `b` with the source of `x` exists
      have hbacc : b ∈ acc := by
        rw [hsplit]; exact List.mem_append_right _ (List.mem_cons_self b l₂)
      by_cases hlt : b.score < x.score
      · -- strictly better score: replace `b` by `x` in place
        rw [if_pos hlt] at heq
        rw [heq]
        have hinj : ∀ a ∈ acc, srcOf a = srcOf x → a = b := by
          intro a ha hasrc
          exact List.inj_on_of_nodup_map h2 ha hbacc (hasrc.trans hbsrc.symm)
        have hnewmem : ∀ a ∈ l₁ ++ x :: l₂, a = x ∨ a ∈ acc := by
          intro a ha
          rcases List.mem_append.1 ha with ha | ha
          · exact Or.inr (by rw [hsplit]; exact List.mem_append_left _ ha)
          · rcases List.mem_cons.1 ha with rfl | ha
            · exact Or.inl rfl
            · exact Or.inr (by
                rw [hsplit]
                exact List.mem_append_right _ (List.mem_cons_of_mem b ha))
        have holdmem : ∀ a ∈ acc, a ≠ b → a ∈ l₁ ++ x :: l₂ := by
          intro a ha hab
          rw [hsplit] at ha
          rcases List.mem_append.1 ha with ha | ha
          · exact List.mem_append_left _ ha
          · rcases List.mem_cons.1 ha with rfl | ha
            · exact absurd rfl hab
            · exact List.mem_append_right _ (List.mem_cons_of_mem x ha)
        have hscorebound : ∀ c ∈ p, srcOf c = srcOf x → c.score < x.score := by
          intro c hc hcsrc
          have hcs : srcOf c ≠ "" := by rw [hcsrc]; exact hx
          obtain ⟨a, ha, hasrc, hle⟩ := h3 c hc hcs
          have hab : a = b := hinj a ha (hasrc.trans hcsrc)
          subst hab
          exact lt_of_le_of_lt hle hlt
        refine ⟨?_, ?_, ?_, ?_⟩
        · intro a ha
          rcases hnewmem a ha with rfl | ha2
          · exact ⟨List.mem_append_right _ (List.mem_singleton.2 rfl), hx⟩
          · exact ⟨List.mem_append_left _ (h1 a ha2).1, (h1 a ha2).2⟩
        · have hmapeq : (l₁ ++ x :: l₂).map srcOf = (l₁ ++ b :: l₂).map srcOf := by
            simp [List.map_append, hbsrc]
          rw [hmapeq, ← hsplit]
          exact h2
        · intro c hc hcs
          rcases List.mem_append.1 hc with hc | hc
          · obtain ⟨a, ha, hasrc, hle⟩ := h3 c hc hcs
            by_cases haeq : srcOf a = srcOf x
            · have hab : a = b := hinj a ha haeq
              refine ⟨x, List.mem_append_right _ (List.mem_cons_self x l₂), ?_, ?_⟩
              · exact haeq.symm.trans hasrc
              · subst hab
                exact le_of_lt (lt_of_le_of_lt hle hlt)
            · have hab : a ≠ b := fun he => haeq (by rw [he]; exact hbsrc)
              exact ⟨a, holdmem a ha hab, hasrc, hle⟩
          · rw [List.mem_singleton] at hc
            subst hc
            exact ⟨c, List.mem_append_right _ (List.mem_cons_self c l₂), rfl, le_refl _⟩
        · intro a ha
          by_cases hax : a = x
          · subst hax
            rw [find?_append_of_all_neg]
            · rw [List.find?_cons_of_pos _ (by simp)]
            · intro c hc
              by_cases hcsrc : srcOf c = srcOf a
              · have hcx := hscorebound c hc hcsrc
                rw [decide_eq_false (not_le.2 hcx), Bool.and_false]
              · have hbe : (srcOf c == srcOf a) = false := by simp [hcsrc]
                rw [hbe, Bool.false_and]
          · have hamem : a ∈ acc := (hnewmem a ha).resolve_left hax
            exact find?_append_left _ _ _ _ (h4 a hamem)
      · -- tie or worse: the dict keeps the earlier entry
        rw [if_neg hlt] at heq
        rw [heq, ← hsplit]
        refine ⟨?_, h2, ?_, ?_⟩
        · intro a ha
          exact ⟨List.mem_append_left _ (h1 a ha).1, (h1 a ha).2⟩
        · intro c hc hcs
          rcases List.mem_append.1 hc with hc | hc
          · obtain ⟨a, ha, h5, h6⟩ := h3 c hc hcs
            exact ⟨a, ha, h5, h6⟩
          · rw [List.mem_singleton] at hc
            subst hc
            exact ⟨b, hbacc, hbsrc, le_of_not_lt hlt⟩
        · intro a ha
          exact find?_append_left _ _ _ _ (h4 a ha)

theorem dedupInv_fold (l : List Candidate) :
    ∀ p acc, DedupInv p acc → DedupInv (p ++ l) (l.foldl dedupFold acc) := by
  induction l with
  | nil => intro p acc h; simpa using h
  | cons x xs ih =>
    intro p acc h
    have h2 := ih (p ++ [x]) (dedupFold acc x) (dedupInv_step p acc x h)
    rw [List.append_assoc] at h2
    exact h2

theorem dedupInv_main (l : List Candidate) : DedupInv l (dedupStep l) := by
  have h0 : DedupInv [] [] := ⟨by simp, by simp, by simp, by simp⟩
  have h1 := dedupInv_fold l [] [] h0
  rw [List.nil_append] at h1
  exact h1

theorem foldl_dedupFold_id (l : List Candidate) :
    ∀ acc, ((acc ++ l).map srcOf).Nodup → (∀ c ∈ l, srcOf c ≠ "") →
      l.foldl dedupFold acc = acc ++ l := by
  induction l with
  | nil => intro acc _ _; simp
  | cons x xs ih =>
    intro acc hnd hne
    have hx : srcOf x ≠ "" := hne x (List.mem_cons_self x xs)
    have hstep : dedupFold acc x = acc ++ [x] := by
      rw [dedupFold, if_neg hx]
      apply dedupInsert_of_no_match
      intro b hb hbeq
      rw [List.map_append, List.map_cons, List.nodup_append] at hnd
      exact hnd.2.2 (List.mem_map_of_mem srcOf hb)
        (by rw [hbeq]; exact List.mem_cons_self _ _)
    have hnd2 : (((acc ++ [x]) ++ xs).map srcOf).Nodup := by
      rw [List.append_assoc]
      exact hnd
    have := ih (acc ++ [x]) hnd2 (fun c hc => hne c (List.mem_cons_of_mem x hc))
    calc (x :: xs).foldl dedupFold acc = xs.foldl dedupFold (dedupFold acc x) := rfl
      _ = xs.foldl dedupFold (acc ++ [x]) := by rw [hstep]
      _ = (acc ++ [x]) ++ xs := this
      _ = acc ++ x :: xs := by rw [List.append_assoc]; rfl

theorem dedupStep_eq_self (l : List Candidate) (hnd : (l.map srcOf).Nodup)
    (hne : ∀ c ∈ l, srcOf c ≠ "") : dedupStep l = l := by
  have := foldl_dedupFold_id l [] (by simpa using hnd) hne
  simpa using this

/-! ### Helper lemmas: membership and fixed points of the pipeline -/

theorem fsOf_mem_norm {m : ℚ} {cs : List Candidate} {c : Candidate}
    (h : c ∈ fsOf m cs) : normalizeC c = c := by
  rcases List.mem_map.1 h with ⟨d, _, rfl⟩
  exact normalizeC_idem d

theorem fsOf_mem_score {m : ℚ} {cs : List Candidate} {c : Candidate}
    (hm : 0 < m) (h : c ∈ fsOf m cs) : m ≤ c.score := by
  rcases List.mem_map.1 h with ⟨d, hd, rfl⟩
  rw [filterStep, if_pos hm] at hd
  have := (List.mem_filter.1 hd).2
  rw [score_normalizeC]
  exact of_decide_eq_true this

theorem mem_rankSurvivors {m : ℚ} {cs : List Candidate} {c : Candidate}
    (h : c ∈ rankSurvivors m cs) : c ∈ fsOf m cs := by
  rw [rankSurvivors] at h
  by_cases h2 : 1 < numSources (fsOf m cs)
  · rw [if_pos h2] at h
    exact ((dedupInv_main (fsOf m cs)).1 c h).1
  · rw [if_neg h2] at h
    exact h

theorem mem_rank {cs : List Candidate} {k : Nat} {m : ℚ} {c : Candidate}
    (h : c ∈ rank cs k m) : c ∈ fsOf m cs :=
  mem_rankSurvivors (mem_sortDesc.1 (List.mem_of_mem_take h))

theorem numSources_le {l₁ l₂ : List Candidate} (h : ∀ c ∈ l₁, c ∈ l₂) :
    numSources l₁ ≤ numSources l₂ := by
  rw [numSources, numSources, ← List.card_toFinset, ← List.card_toFinset]
  apply Finset.card_le_card
  intro s hs
  rw [List.mem_toFinset] at hs ⊢
  rcases List.mem_map.1 hs with ⟨c, hc, rfl⟩
  exact List.mem_map_of_mem srcOf (h c hc)

theorem rank_sorted (cs : List Candidate) (k : Nat) (m : ℚ) :
    List.Sorted scoreGE (rank cs k m) :=
  List.Pairwise.sublist (List.take_sublist k _) (sortDesc_sorted _)

theorem map_eq_self_of {α : Type} (f : α → α) (l : List α) (h : ∀ a ∈ l, f a = a) :
    l.map f = l := by
  induction l with
  | nil => rfl
  | cons a t ih =>
    rw [List.map_cons, h a (List.mem_cons_self a t),
      ih (fun b hb => h b (List.mem_cons_of_mem a hb))]

theorem rank_fix_filter (cs : List Candidate) (k : Nat) (m : ℚ) :
    filterStep m (rank cs k m) = rank cs k m := by
  rw [filterStep]
  by_cases hm : 0 < m
  · rw [if_pos hm]
    apply List.filter_eq_self.2
    intro c hc
    exact decide_eq_true (fsOf_mem_score hm (mem_rank hc))
  · rw [if_neg hm]

theorem rank_fix_fsOf (cs : List Candidate) (k : Nat) (m : ℚ) :
    fsOf m (rank cs k m) = rank cs k m := by
  rw [fsOf, rank_fix_filter, normStep]
  exact map_eq_self_of _ _ (fun c hc => fsOf_mem_norm (mem_rank hc))

theorem rank_fix_sort (cs : List Candidate) (k : Nat) (m : ℚ) :
    sortDesc (rank cs k m) = rank cs k m :=
  sortDesc_eq_of_sorted (rank_sorted cs k m)

theorem rank_fix_take (cs : List Candidate) (k : Nat) (m : ℚ) :
    (rank cs k m).take k = rank cs k m := by
  rw [rank, List.take_take, Nat.min_self]

theorem rank_nodup_sources {cs : List Candidate} {k : Nat} {m : ℚ}
    (h : 1 < numSources (fsOf m cs)) :
    ((rank cs k m).map srcOf).Nodup ∧ ∀ c ∈ rank cs k m, srcOf c ≠ "" := by
  have hsurv : rankSurvivors m cs = dedupStep (fsOf m cs) := by
    rw [rankSurvivors, if_pos h]
  constructor
  · have hD : ((dedupStep (fsOf m cs)).map srcOf).Nodup := (dedupInv_main _).2.1
    have hperm : List.Perm ((sortDesc (dedupStep (fsOf m cs))).map srcOf)
        ((dedupStep (fsOf m cs)).map srcOf) := (sortDesc_perm _).map _
    have hnd2 := hperm.nodup_iff.2 hD
    rw [rank, hsurv, List.map_take]
    exact List.Nodup.sublist (List.take_sublist k _) hnd2
  · intro c hc
    rw [rank, hsurv] at hc
    exact ((dedupInv_main (fsOf m cs)).1 c (mem_sortDesc.1 (List.mem_of_mem_take hc))).2

/-! ### Helper lemmas: the chunking loop -/

theorem chunkFrom_cons (t : List Char) (w s i f : Nat) (hi : i < t.length)
    (hbr : ¬ t.length ≤ i + w) (hws : ((t.drop i).take w).all Char.isWhitespace = false) :
    chunkFrom t w s i (f + 1) = (t.drop i).take w :: chunkFrom t w s (i + s) f := by
  simp only [chunkFrom, if_pos hi, if_neg hbr, hws, Bool.false_eq_true, if_false]

theorem chunkFrom_last (t : List Char) (w s i f : Nat) (hi : i < t.length)
    (hbr : t.length ≤ i + w) (hws : ((t.drop i).take w).all Char.isWhitespace = false) :
    chunkFrom t w s i (f + 1) = [(t.drop i).take w] := by
  simp only [chunkFrom, if_pos hi, if_pos hbr, hws, Bool.false_eq_true, if_false]


theorem window_not_all_ws (t : List Char) (w i p : Nat) (hip : i ≤ p) (hp : p < t.length)
    (hpw : p < i + w) (hws : (t.getD p ' ').isWhitespace = false) :
    ((t.drop i).take w).all Char.isWhitespace = false := by
  have hlt : p - i < ((t.drop i).take w).length := by
    rw [List.length_take, List.length_drop]; omega
  cases hall : ((t.drop i).take w).all Char.isWhitespace with
  | false => rfl
  | true =>
    exfalso
    have hmem : ((t.drop i).take w).getD (p - i) ' ' ∈ (t.drop i).take w := by
      rw [List.getD_eq_getElem _ _ hlt]
      exact List.getElem_mem hlt
    have hwsmem := List.all_eq_true.1 hall _ hmem
    have heq : ((t.drop i).take w).getD (p - i) ' ' = t.getD p ' ' := by
      rw [List.getD_eq_getElem _ _ hlt, List.getElem_take, List.getElem_drop,
        List.getD_eq_getElem t ' ' hp]
      simp only [Nat.add_sub_cancel' hip]
    rw [heq, hws] at hwsmem
    exact Bool.false_ne_true hwsmem

theorem chunkFrom_covers (t : List Char) (w s : Nat) (hs : 1 ≤ s) (hsw : s ≤ w)
    (p : Nat) (hp : p < t.length) (hws : (t.getD p ' ').isWhitespace = false) :
    ∀ f i, i ≤ p → t.length - i ≤ f →
      ∃ j ∈ List.range t.length, j ≤ p ∧ p < j + w ∧
        (t.drop j).take w ∈ chunkFrom t w s i f := by
  intro f
  induction f with
  | zero => intro i hip hf; omega
  | succ f ih =>
    intro i hip hf
    have hi : i < t.length := lt_of_le_of_lt hip hp
    by_cases hpw : p < i + w
    · refine ⟨i, List.mem_range.2 hi, hip, hpw, ?_⟩
      have hkeep := window_not_all_ws t w i p hip hp hpw hws
      by_cases hbr : t.length ≤ i + w
      · rw [chunkFrom_last t w s i f hi hbr hkeep]
        exact List.mem_singleton.2 rfl
      · rw [chunkFrom_cons t w s i f hi hbr hkeep]
        exact List.mem_cons_self _ _
    · have hbr : ¬ t.length ≤ i + w := by omega
      obtain ⟨j, hj1, hj2, hj3, hj4⟩ := ih (i + s) (by omega) (by omega)
      refine ⟨j, hj1, hj2, hj3, ?_⟩
      show (t.drop j).take w ∈ chunkFrom t w s i (f + 1)
      simp only [chunkFrom, if_pos hi, if_neg hbr]
      by_cases hall : ((t.drop i).take w).all Char.isWhitespace
      · simpa [hall] using hj4
      · simp only [Bool.not_eq_true] at hall
        simp only [hall, Bool.false_eq_true, if_false]
        exact List.mem_cons_of_mem _ hj4

/-! ### Claim theorems -/

/-- Claim C8: `rank` is idempotent — running the post-processing
pipeline of `query_similar` a second time on its own output, with the
same `topK` and `minScore`, returns that output unchanged. -/
theorem c8_rank_idempotent : ∀ (cs : List Candidate) (k : Nat) (m : ℚ),
    rank (rank cs k m) k m = rank cs k m := by
  intro cs k m
  have hfs : fsOf m (rank cs k m) = rank cs k m := rank_fix_fsOf cs k m
  have hsurv : rankSurvivors m (rank cs k m) = rank cs k m := by
    rw [rankSurvivors, hfs]
    by_cases h2 : 1 < numSources (rank cs k m)
    · rw [if_pos h2]
      have hle : numSources (rank cs k m) ≤ numSources (fsOf m cs) :=
        numSources_le (fun c hc => mem_rank hc)
      have htrig : 1 < numSources (fsOf m cs) := lt_of_lt_of_le h2 hle
      obtain ⟨hnd, hne⟩ := rank_nodup_sources htrig
      exact dedupStep_eq_self _ hnd hne
    · rw [if_neg h2]
  rw [rank, hsurv, rank_fix_sort, rank_fix_take]

/-- Claim C4: the final steps of `rank` sort the surviving candidates
by score descending with a stable sort and truncate to the first `topK`
entries; the output length is at most `topK`, and `topK = 0` yields an
empty result.  Stability is expressed by the filter characterization:
for every score value the subsequence of candidates holding it is
unchanged by the sort. -/
theorem c4_sort_truncate : ∀ (cs : List Candidate) (k : Nat) (m : ℚ),
    (rank cs k m).length ≤ k ∧
    rank cs 0 m = [] ∧
    List.Sorted scoreGE (rank cs k m) ∧
    (∀ s : ℚ, (sortDesc (rankSurvivors m cs)).filter (fun c => decide (c.score = s)) =
      (rankSurvivors m cs).filter (fun c => decide (c.score = s))) ∧
    rank cs k m = (sortDesc (rankSurvivors m cs)).take k := by
  intro cs k m
  refine ⟨?_, rfl, rank_sorted cs k m, fun s => sortDesc_filter_score _ s, rfl⟩
  rw [rank, List.length_take]
  exact Nat.min_le_left k _

/-- Claim C7: `chunk_text` fails with `invalidParameter` exactly when
`chunk_size ≤ 0` or `overlap < 0` or `overlap ≥ chunk_size`; for valid
parameters it returns a result, and empty text yields the empty list
rather than an error. -/
theorem c7_invalid_parameter : ∀ (t : List Char) (cz ov : Int),
    (chunk_text t cz ov = .error .invalidParameter ↔ (cz ≤ 0 ∨ ov < 0 ∨ cz ≤ ov)) ∧
    (0 < cz → 0 ≤ ov → ov < cz →
      (∃ cs, chunk_text t cz ov = .ok cs) ∧ chunk_text [] cz ov = .ok []) := by
  intro t cz ov
  constructor
  · constructor
    · intro h
      by_cases h1 : cz ≤ 0
      · exact Or.inl h1
      by_cases h2 : ov < 0 ∨ cz ≤ ov
      · rcases h2 with h2 | h2
        · exact Or.inr (Or.inl h2)
        · exact Or.inr (Or.inr h2)
      · rw [chunk_text, if_neg h1, if_neg h2] at h
        exact Except.noConfusion h
    · intro h
      rw [chunk_text]
      by_cases h1 : cz ≤ 0
      · rw [if_pos h1]
      · rw [if_neg h1]
        have h2 : ov < 0 ∨ cz ≤ ov := by
          rcases h with h | h | h
          · exact absurd h h1
          · exact Or.inl h
          · exact Or.inr h
        rw [if_pos h2]
  · intro h1 h2 h3
    constructor
    · exact ⟨_, by rw [chunk_text, if_neg (by omega), if_neg (by omega)]⟩
    · rw [chunk_text, if_neg (by omega), if_neg (by omega)]
      rfl

/-- Witness for claim C7 at concrete parameters 500/50. -/
theorem c7_witness :
    ((0:Int) < 500 ∧ (0:Int) ≤ 50 ∧ (50:Int) < 500) ∧
    (∃ cs, chunk_text ['a'] 500 50 = .ok cs) ∧ chunk_text [] 500 50 = .ok [] :=
  ⟨⟨by norm_num, by norm_num, by norm_num⟩,
    (c7_invalid_parameter ['a'] 500 50).2 (by norm_num) (by norm_num) (by norm_num)⟩

/-- Claim C3, counterexample: the claim says the threshold filter keeps
exactly the candidates with `score ≥ minScore` for every `minScore`,
and simultaneously that `minScore = 0` filters nothing even though
scores may be negative.  At `minScore = 0` with a candidate of score
`-1` the code keeps the candidate (the filter does not run), while
`score ≥ minScore` would drop it — the two halves of the claim
contradict each other on this input. -/
theorem c3_counterexample :
    ¬ (filterStep 0 [(⟨"a", none, -1⟩ : Candidate)] =
        List.filter (fun c => decide ((0:ℚ) ≤ c.score)) [(⟨"a", none, -1⟩ : Candidate)]) := by
  decide

/-- Claim C3, amended: the threshold filter of `rank` keeps exactly the
candidates with `score ≥ minScore` whenever `minScore > 0`; whenever
`minScore ≤ 0` (in particular the default `minScore = 0`) it performs
no filtering at all, so candidates with negative scores also pass. -/
theorem c3_amended_threshold : ∀ (cs : List Candidate) (m : ℚ),
    (0 < m → filterStep m cs = cs.filter (fun c => decide (m ≤ c.score))) ∧
    (m ≤ 0 → filterStep m cs = cs) := by
  intro cs m
  constructor
  · intro h; rw [filterStep, if_pos h]
  · intro h; rw [filterStep, if_neg (not_lt.2 h)]

/-- Witness for claim C3 at `minScore = 1` and `minScore = -1`. -/
theorem c3_witness :
    ((0:ℚ) < 1 ∧ filterStep 1 [(⟨"a", none, 2⟩ : Candidate), ⟨"b", none, 0⟩] =
      List.filter (fun c => decide ((1:ℚ) ≤ c.score))
        [(⟨"a", none, 2⟩ : Candidate), ⟨"b", none, 0⟩]) ∧
    ((-1:ℚ) ≤ 0 ∧ filterStep (-1) [(⟨"a", none, -2⟩ : Candidate)] =
      [(⟨"a", none, -2⟩ : Candidate)]) :=
  ⟨⟨by norm_num, (c3_amended_threshold _ 1).1 (by norm_num)⟩,
   ⟨by norm_num, (c3_amended_threshold _ (-1)).2 (by norm_num)⟩⟩

/-- Claim C1, counterexample: with one sourceless candidate (score 3)
and one candidate of source "src1" (score 1), exactly one distinct
nonempty source is present among the filtered candidates, so the claim
(read with the spec's rule that empty/missing source is excluded from
dedup consideration) requires deduplication to be skipped and all
filtered candidates to stay eligible.  The code instead counts the
empty string as a distinct value of `unique_sources`, activates dedup,
and drops the sourceless candidate: the output is the single "src1"
candidate, not the sorted filtered list. -/
theorem c1_counterexample :
    ((((fsOf 0 [(⟨"a", none, 3⟩ : Candidate), ⟨"b", some "src1", 1⟩]).map srcOf).filter
        (fun s => !(s == ""))).dedup.length = 1) ∧
    rank [(⟨"a", none, 3⟩ : Candidate), ⟨"b", some "src1", 1⟩] 5 0 =
      [⟨"b", some "src1", 1⟩] ∧
    rank [(⟨"a", none, 3⟩ : Candidate), ⟨"b", some "src1", 1⟩] 5 0 ≠
      (sortDesc (fsOf 0 [(⟨"a", none, 3⟩ : Candidate), ⟨"b", some "src1", 1⟩])).take 5 := by
  refine ⟨by decide, by decide, by decide⟩

/-- Claim C1, amended: the dedup trigger of `rank` counts the empty
normalized source as a distinct value.  When the set of normalized
source values (empty included) has more than one element, `rank` sorts
and truncates the deduplicated list, which holds exactly one candidate
per nonempty source — a candidate of the filtered list, one per source,
covering every nonempty source, each being the highest-scoring
candidate of its source with ties broken in favour of the first
encountered (it is the first candidate of its source whose score is not
exceeded) — and every empty-source candidate is dropped.  When at most
one distinct value is present, deduplication is skipped and all
filtered candidates remain eligible. -/
theorem c1_amended_dedup : ∀ (cs : List Candidate) (k : Nat) (m : ℚ),
    (numSources (fsOf m cs) ≤ 1 → rank cs k m = (sortDesc (fsOf m cs)).take k) ∧
    (1 < numSources (fsOf m cs) →
      rank cs k m = (sortDesc (dedupStep (fsOf m cs))).take k ∧
      (∀ a ∈ dedupStep (fsOf m cs), a ∈ fsOf m cs ∧ srcOf a ≠ "") ∧
      ((dedupStep (fsOf m cs)).map srcOf).Nodup ∧
      (∀ c ∈ fsOf m cs, srcOf c ≠ "" →
        ∃ a, a ∈ dedupStep (fsOf m cs) ∧ srcOf a = srcOf c ∧ c.score ≤ a.score) ∧
      (∀ a ∈ dedupStep (fsOf m cs),
        (fsOf m cs).find? (fun c => srcOf c == srcOf a && decide (a.score ≤ c.score)) =
          some a)) := by
  intro cs k m
  obtain ⟨i1, i2, i3, i4⟩ := dedupInv_main (fsOf m cs)
  constructor
  · intro h
    rw [rank, rankSurvivors, if_neg (by omega)]
  · intro h
    exact ⟨by rw [rank, rankSurvivors, if_pos h], i1, i2, i3, i4⟩

/-- Witness for claim C1: one concrete input per branch of the amended
claim. -/
theorem c1_witness :
    (numSources (fsOf 0 [(⟨"a", some "s1", 3⟩ : Candidate)]) ≤ 1 ∧
      rank [(⟨"a", some "s1", 3⟩ : Candidate)] 5 0 =
        (sortDesc (fsOf 0 [(⟨"a", some "s1", 3⟩ : Candidate)])).take 5) ∧
    (1 < numSources (fsOf 0 [(⟨"a", some "s1", 3⟩ : Candidate), ⟨"b", some "s2", 1⟩]) ∧
      rank [(⟨"a", some "s1", 3⟩ : Candidate), ⟨"b", some "s2", 1⟩] 5 0 =
        (sortDesc (dedupStep
          (fsOf 0 [(⟨"a", some "s1", 3⟩ : Candidate), ⟨"b", some "s2", 1⟩]))).take 5) :=
  ⟨⟨by decide, (c1_amended_dedup _ 5 0).1 (by decide)⟩,
   ⟨by decide, ((c1_amended_dedup _ 5 0).2 (by decide)).1⟩⟩

/-- Claim C2, counterexample: the sourceless candidate (score 2, the
highest) is supposed to be excluded from dedup consideration but still
pass through to sorting and so appear in the final output
(`topK = 5` keeps everything that survives).  The code drops it: when
dedup is active (the empty source counted as a distinct value of
`unique_sources`), candidates with empty source are skipped by
`if not src: continue` and never reach the output. -/
theorem c2_counterexample :
    rank [(⟨"p", none, 2⟩ : Candidate), ⟨"q", some "doc", 1⟩] 5 0 =
      [⟨"q", some "doc", 1⟩] ∧
    (⟨"p", some "", (2:ℚ)⟩ : Candidate) ∉
      rank [(⟨"p", none, 2⟩ : Candidate), ⟨"q", some "doc", 1⟩] 5 0 ∧
    (⟨"p", none, (2:ℚ)⟩ : Candidate) ∉
      rank [(⟨"p", none, 2⟩ : Candidate), ⟨"q", some "doc", 1⟩] 5 0 := by
  refine ⟨by decide, by decide, by decide⟩

/-- Claim C2, amended: a candidate with empty or missing source counts
toward the set of distinct source values that decides whether dedup
runs; when dedup runs it is dropped from the output entirely, so an
empty-source candidate can appear in `rank`'s output only when at most
one distinct source value is present — in which case dedup is skipped
and all filtered candidates pass through to the sorting step. -/
theorem c2_amended_empty_source : ∀ (cs : List Candidate) (k : Nat) (m : ℚ) (c : Candidate),
    c ∈ rank cs k m → srcOf c = "" →
      numSources (fsOf m cs) ≤ 1 ∧ rank cs k m = (sortDesc (fsOf m cs)).take k := by
  intro cs k m c hc hsrc
  by_cases h : 1 < numSources (fsOf m cs)
  · exfalso
    rw [rank, rankSurvivors, if_pos h] at hc
    exact ((dedupInv_main (fsOf m cs)).1 c (mem_sortDesc.1 (List.mem_of_mem_take hc))).2 hsrc
  · exact ⟨by omega, by rw [rank, rankSurvivors, if_neg h]⟩

/-- Witness for claim C2: a sourceless candidate that does appear in
the output (single distinct source value, dedup skipped). -/
theorem c2_witness :
    ((⟨"p", some "", (2:ℚ)⟩ : Candidate) ∈ rank [(⟨"p", none, 2⟩ : Candidate)] 5 0 ∧
      srcOf (⟨"p", some "", (2:ℚ)⟩ : Candidate) = "") ∧
    (numSources (fsOf 0 [(⟨"p", none, 2⟩ : Candidate)]) ≤ 1 ∧
      rank [(⟨"p", none, 2⟩ : Candidate)] 5 0 =
        (sortDesc (fsOf 0 [(⟨"p", none, 2⟩ : Candidate)])).take 5) :=
  ⟨⟨by decide, by decide⟩,
    c2_amended_empty_source [(⟨"p", none, 2⟩ : Candidate)] 5 0
      (⟨"p", some "", (2:ℚ)⟩ : Candidate) (by decide) (by decide)⟩

/-- Claim C5, counterexample: full coverage fails because whitespace-only
windows are dropped.  For the one-character text `" "` with
`chunk_size = 1`, `overlap = 0`, the only window is all-whitespace, so
`chunk_text` emits no chunk at all and position 0 appears in no emitted
window. -/
theorem c5_counterexample :
    chunk_text [' '] 1 0 = .ok [] ∧ ¬ covered [' '] 1 [] 0 := by
  refine ⟨by decide, by decide⟩

/-- Claim C5, amended: for valid parameters, every position of the text
that holds a non-whitespace character appears in at least one emitted
window (a window containing a non-whitespace character is never
dropped); positions covered only by whitespace-only windows may be
uncovered, since those windows are dropped. -/
theorem c5_amended_coverage : ∀ (t : List Char) (cz ov : Int) (p : Nat),
    0 < cz → 0 ≤ ov → ov < cz → p < t.length →
    (t.getD p ' ').isWhitespace = false →
    ∃ cs, chunk_text t cz ov = .ok cs ∧ covered t cz.toNat cs p := by
  intro t cz ov p h1 h2 h3 hp hws
  have hok : chunk_text t cz ov = .ok (chunkFrom t cz.toNat (cz - ov).toNat 0 t.length) := by
    rw [chunk_text, if_neg (by omega), if_neg (by omega)]
  refine ⟨_, hok, ?_⟩
  obtain ⟨j, hj⟩ := chunkFrom_covers t cz.toNat (cz - ov).toNat (by omega) (by omega)
    p hp hws t.length 0 (Nat.zero_le p) (le_refl _)
  exact ⟨j, hj⟩

/-- Witness for claim C5: text "ab  " with window 2 and overlap 0;
position 0 holds 'a' and is covered by the first emitted window. -/
theorem c5_witness :
    ((0:Int) < 2 ∧ (0:Int) ≤ 0 ∧ (0:Int) < 2 ∧
      0 < (['a', 'b', ' ', ' '] : List Char).length ∧
      ((['a', 'b', ' ', ' '] : List Char).getD 0 ' ').isWhitespace = false) ∧
    ∃ cs, chunk_text ['a', 'b', ' ', ' '] 2 0 = .ok cs ∧ covered ['a', 'b', ' ', ' '] 2 cs 0 :=
  ⟨⟨by norm_num, by norm_num, by norm_num, by decide, by decide⟩,
    c5_amended_coverage ['a', 'b', ' ', ' '] 2 0 0 (by norm_num) (by norm_num) (by norm_num)
      (by decide) (by decide)⟩

set_option maxRecDepth 40000 in
/-- Claim C6, counterexample: the claim promises exactly 3 chunks for
ANY text of length 1200 with window 500 and overlap 50, but a text of
1200 spaces produces 0 chunks — every window is whitespace-only and is
dropped. -/
theorem c6_counterexample :
    chunk_text (List.replicate 1200 ' ') 500 50 = .ok [] ∧
    ([] : List (List Char)).length ≠ 3 := by
  refine ⟨by decide, by decide⟩

/-- Claim C6, amended: for any text of length 1200 whose three windows
`[0:500)`, `[450:950)`, `[900:1200)` each contain a non-whitespace
character, `chunk_text` with window 500 and overlap 50 produces exactly
those three chunks, at starting offsets 0, 450 = W−V and 900 = 2(W−V). -/
theorem c6_amended_offsets : ∀ t : List Char, t.length = 1200 →
    (t.take 500).all Char.isWhitespace = false →
    ((t.drop 450).take 500).all Char.isWhitespace = false →
    ((t.drop 900).take 500).all Char.isWhitespace = false →
    chunk_text t 500 50 = .ok [t.take 500, (t.drop 450).take 500, t.drop 900] := by
  intro t hlen h0 h1 h2
  have hok : chunk_text t 500 50 = .ok (chunkFrom t 500 450 0 t.length) := by
    rw [chunk_text, if_neg (by norm_num), if_neg (by norm_num)]
    rfl
  rw [hok, hlen]
  have hws0 : ((t.drop 0).take 500).all Char.isWhitespace = false := by
    rw [List.drop_zero]; exact h0
  have e0 : chunkFrom t 500 450 0 1200 =
      (t.drop 0).take 500 :: chunkFrom t 500 450 450 1199 :=
    chunkFrom_cons t 500 450 0 1199 (by omega) (by omega) hws0
  have e1 : chunkFrom t 500 450 450 1199 =
      (t.drop 450).take 500 :: chunkFrom t 500 450 900 1198 :=
    chunkFrom_cons t 500 450 450 1198 (by omega) (by omega) h1
  have e2 : chunkFrom t 500 450 900 1198 = [(t.drop 900).take 500] :=
    chunkFrom_last t 500 450 900 1197 (by omega) (by omega) h2
  rw [e0, e1, e2, List.drop_zero]
  have h900 : (t.drop 900).take 500 = t.drop 900 :=
    List.take_of_length_le (by rw [List.length_drop, hlen]; omega)
  rw [h900]

set_option maxRecDepth 40000 in
/-- Witness for claim C6: 1200 copies of 'a'. -/
theorem c6_witness :
    ((List.replicate 1200 'a').length = 1200) ∧
    chunk_text (List.replicate 1200 'a') 500 50 =
      .ok [(List.replicate 1200 'a').take 500,
        ((List.replicate 1200 'a').drop 450).take 500,
        (List.replicate 1200 'a').drop 900] :=
  ⟨by simp, c6_amended_offsets _ (by simp) (by decide) (by decide) (by decide)⟩

/-- Claim C10, counterexample: with two documents and one distance, the
second candidate lacks a distance and receives score 1.0, but it does
NOT rank ahead of all genuinely scored candidates: the first candidate
has distance 0, hence the same score 1.0, and the stable sort keeps it
first, so the distance-lacking candidate ranks behind it. -/
theorem c10_counterexample :
    formatResults ["a", "b"] [some "s1", some "s2"] [0] =
      [⟨"a", some "s1", 1⟩, ⟨"b", some "s2", 1⟩] ∧
    rank (formatResults ["a", "b"] [some "s1", some "s2"] [0]) 5 0 =
      [⟨"a", some "s1", 1⟩, ⟨"b", some "s2", 1⟩] ∧
    rank (formatResults ["a", "b"] [some "s1", some "s2"] [0]) 5 0 ≠
      [⟨"b", some "s2", 1⟩, ⟨"a", some "s1", 1⟩] := by
  have hfmt : formatResults ["a", "b"] [some "s1", some "s2"] [0] =
      [⟨"a", some "s1", 1⟩, ⟨"b", some "s2", 1⟩] := by
    simp [formatResults, List.range_succ]
  refine ⟨hfmt, ?_, ?_⟩
  · rw [hfmt]; decide
  · rw [hfmt]; decide

/-- Claim C10, amended: a candidate at an index with no distance is
assigned score 1 (the maximum cosine similarity); a candidate whose
distance is strictly positive gets score strictly below 1; and `rank`'s
output is ordered by score descending, so distance-lacking candidates
are placed ahead of every positive-distance candidate but tie with
zero-distance candidates (which, coming earlier, stay ahead of them). -/
theorem c10_amended_default_score : ∀ (docs : List String) (mds : List (Option String))
    (dists : List ℚ) (i : Nat), dists.length ≤ i → i < docs.length →
    ((formatResults docs mds dists).getD i default).score = 1 ∧
    (∀ j, j < dists.length → j < docs.length → 0 < dists.getD j 0 →
      ((formatResults docs mds dists).getD j default).score < 1) ∧
    (∀ k : Nat, List.Pairwise scoreGE (rank (formatResults docs mds dists) k 0)) := by
  intro docs mds dists i hi hd
  have hlen : (formatResults docs mds dists).length = docs.length := by
    rw [formatResults, List.length_map, List.length_range]
  have hget : ∀ n, n < docs.length →
      (formatResults docs mds dists).getD n default =
        ⟨docs.getD n "", mds.getD n none,
          if n < dists.length then 1 - dists.getD n 0 else 1⟩ := by
    intro n hn
    rw [List.getD_eq_getElem _ _ (by rw [hlen]; exact hn)]
    simp only [formatResults, List.getElem_map, List.getElem_range]
  refine ⟨?_, ?_, ?_⟩
  · rw [hget i hd]
    simp only [if_neg (by omega : ¬ i < dists.length)]
  · intro j hj hjd hpos
    rw [hget j hjd]
    simp only [if_pos hj]
    linarith
  · intro k
    exact rank_sorted _ k 0

/-- Witness for claim C10: two documents, one distance of 1/4 — the
second candidate has no distance and scores 1, the first scores 3/4. -/
theorem c10_witness :
    (([(1:ℚ)/4] : List ℚ).length ≤ 1 ∧ 1 < (["a", "b"] : List String).length) ∧
    ((formatResults ["a", "b"] [some "s1", some "s2"] [(1:ℚ)/4]).getD 1 default).score = 1 ∧
    ((formatResults ["a", "b"] [some "s1", some "s2"] [(1:ℚ)/4]).getD 0 default).score < 1 :=
  ⟨⟨by norm_num, by norm_num⟩,
    (c10_amended_default_score ["a", "b"] [some "s1", some "s2"] [(1:ℚ)/4] 1
      (by norm_num) (by norm_num)).1,
    (c10_amended_default_score ["a", "b"] [some "s1", some "s2"] [(1:ℚ)/4] 1
      (by norm_num) (by norm_num)).2.1 0 (by norm_num) (by norm_num) (by norm_num)⟩
